import Mathlib

/-!
# Verification of the MPMC pointer ring (`src/mpmc_ptr_ring.h`)

Shallow embedding of the lock-free multi-producer/multi-consumer pointer
ring buffer.  Pointers (`void *`) are modelled as natural numbers with `0`
playing the role of the C null pointer `NULL`; the slot array is a
`List Ptr`; the three `atomic_long_t` counters are unbounded naturals
(the spec assumes the counter type never wraps, and under the invariant
`consumer_head ≤ producer_head` the `size_t` subtraction `p - c` computed
by the code coincides with truncated natural subtraction).

Two embeddings are given:

* a *sequential* embedding, one total function per C function, describing
  the effect of a complete, uninterleaved call.  In a sequential execution
  every `cmpxchg` succeeds on its first attempt and the commit spin-wait
  `while (producer_tail != p)` exits immediately, because
  `producer_tail = producer_head` holds between calls; the sequential
  functions encode exactly that execution of the C body.

* an *interleaved* embedding of the consumer side (`ConsumerStep` below):
  any number of consumer threads run `mpmc_ptr_ring_consume` concurrently
  against a quiesced producer side, with the read of
  `consumer_head`/`producer_tail`/the slot and the `cmpxchg` on
  `consumer_head` as the atomic steps.  This is used for the
  no-duplicate-delivery property.
-/

/-- Opaque pointer-sized values transported by the ring.  `0` models the C
null pointer `NULL`. -/
abbrev Ptr := Nat

/-- The C null pointer.  `kcalloc` zero-initialises the slot array with it,
and `mpmc_ptr_ring_consume` returns it on an empty ring. -/
def NULL : Ptr := 0

/-- Linux errno `EINVAL` (invalid argument). -/
def EINVAL : Int := 22

/-- Linux errno `ENOMEM` (out of memory). -/
def ENOMEM : Int := 12

/-- Linux errno `ENOSPC` (no space left). -/
def ENOSPC : Int := 28

/-- `struct mpmc_ptr_ring`: the slot array `queue` (length `size`), the
fixed power-of-two `size`, and the three untrimmed atomic indices. -/
structure mpmc_ptr_ring where
  queue : List Ptr
  size : Nat
  consumer_head : Nat
  producer_head : Nat
  producer_tail : Nat
deriving Repr, DecidableEq

/-- `mpmc_ptr_ring_empty`: snapshot comparison `chead == ptail`. -/
def mpmc_ptr_ring_empty (r : mpmc_ptr_ring) : Bool :=
  r.consumer_head == r.producer_tail

/-- `mpmc_ptr_ring_produce`, sequential execution of the C body.
`p = producer_head`, `c = consumer_head`, `mask = size - 1`.  If
`p - c < mask` the claim `cmpxchg(&producer_head, p, p+1)` succeeds
(no rival producer), the value is stored at `queue[p & mask]`, the commit
spin `while (producer_tail != p)` exits at once (sequentially
`producer_tail = producer_head = p`) and `producer_tail` is set to `p + 1`.
Otherwise the re-read of `producer_head` returns the same `p`
(no rival made progress) and the call returns `-ENOSPC` with the ring
untouched. -/
def mpmc_ptr_ring_produce (r : mpmc_ptr_ring) (ptr : Ptr) : Int × mpmc_ptr_ring :=
  let mask := r.size - 1
  let p := r.producer_head
  let c := r.consumer_head
  if p - c < mask then
    (0, { r with queue := r.queue.set (p &&& mask) ptr,
                 producer_head := p + 1,
                 producer_tail := p + 1 })
  else
    (-ENOSPC, r)

/-- `mpmc_ptr_ring_consume`, sequential execution of the C body.
`c = consumer_head`, `p = producer_tail`.  If `p == c` the ring is empty
and `NULL` is returned, ring untouched; otherwise the element at
`queue[c & mask]` is read and the `cmpxchg(&consumer_head, c, c+1)`
succeeds (no rival consumer). -/
def mpmc_ptr_ring_consume (r : mpmc_ptr_ring) : Ptr × mpmc_ptr_ring :=
  let mask := r.size - 1
  let c := r.consumer_head
  let p := r.producer_tail
  if p = c then
    (NULL, r)
  else
    (r.queue.getD (c &&& mask) NULL, { r with consumer_head := c + 1 })

/-- Linux's `is_power_of_2(n)`: `n != 0 && ((n & (n - 1)) == 0)`. -/
def is_power_of_2 (n : Nat) : Bool :=
  n != 0 && (n &&& (n - 1)) == 0

/-- `mpmc_ptr_ring_init`.  The C function validates the size, then sets
`size` and the three counters, then calls `kcalloc`; `allocOk` models
whether that allocation succeeds.  On failure the struct fields have
already been written and `r->queue` holds the null pointer (modelled by
the empty list). -/
def mpmc_ptr_ring_init (r : mpmc_ptr_ring) (size : Nat) (allocOk : Bool) :
    Int × mpmc_ptr_ring :=
  if !(is_power_of_2 size) then
    (-EINVAL, r)
  else
    let r1 : mpmc_ptr_ring :=
      { r with size := size, consumer_head := 0, producer_head := 0, producer_tail := 0 }
    if allocOk then
      (0, { r1 with queue := List.replicate size NULL })
    else
      (-ENOMEM, { r1 with queue := [] })

/-- The drain loop of `mpmc_ptr_ring_cleanup`:
`while ((ptr = mpmc_ptr_ring_consume(r))) destroy(ptr);`.
Returns the values passed to `destroy`, in call order, and the ring state
when the loop exits.  The loop stops at the first `NULL` returned by
`consume` — on an empty ring the ring is unchanged, but a dequeued null
element also stops it (after the consume already advanced
`consumer_head`).  The fuel argument only bounds the recursion; any fuel
larger than `producer_tail - consumer_head` is never exhausted. -/
def cleanupDrain : Nat → mpmc_ptr_ring → List Ptr × mpmc_ptr_ring
  | 0, r => ([], r)
  | fuel + 1, r =>
    let res := mpmc_ptr_ring_consume r
    if res.1 = NULL then ([], res.2)
    else
      let rest := cleanupDrain fuel res.2
      (res.1 :: rest.1, rest.2)

/-- `mpmc_ptr_ring_cleanup(r, destroy)`.  `hasDestroy` models whether the
`destroy` callback is non-null: only then does the C code run the drain
loop.  The first component is the list of values handed to `destroy`
(empty when `hasDestroy = false`); `kfree(r->queue)` is modelled by
clearing the queue field. -/
def mpmc_ptr_ring_cleanup (r : mpmc_ptr_ring) (hasDestroy : Bool) :
    List Ptr × mpmc_ptr_ring :=
  let drained :=
    if hasDestroy then
      cleanupDrain (r.producer_tail - r.consumer_head + 1) r
    else
      ([], r)
  (drained.1, { drained.2 with queue := [] })

/-- `__mpmc_ptr_ring_peek` (single-consumer).  Reads `consumer_head` and
`producer_tail`; on `c == p` returns `NULL`, otherwise the element at
`queue[c & mask]`.  The ring is returned unchanged — the C body performs
no store. -/
def __mpmc_ptr_ring_peek (r : mpmc_ptr_ring) : Ptr × mpmc_ptr_ring :=
  let mask := r.size - 1
  let c := r.consumer_head
  let p := r.producer_tail
  if c = p then
    (NULL, r)
  else
    (r.queue.getD (c &&& mask) NULL, r)

/-- `__mpmc_ptr_ring_discard_one` (single-consumer):
`atomic_long_inc(&r->consumer_head)`. -/
def __mpmc_ptr_ring_discard_one (r : mpmc_ptr_ring) : mpmc_ptr_ring :=
  { r with consumer_head := r.consumer_head + 1 }

/-- The ring a successful `mpmc_ptr_ring_init` produces: zeroed slot array
of length `size`, all three counters `0`. -/
def freshRing (size : Nat) : mpmc_ptr_ring :=
  ⟨List.replicate size NULL, size, 0, 0, 0⟩

/-- Abstract contents of the ring: the values in the occupied slots, in
consumption order — logical indices `consumer_head, …, producer_tail - 1`,
each mapped through `queue[i & (size - 1)]`. -/
def contents (r : mpmc_ptr_ring) : List Ptr :=
  (List.range' r.consumer_head (r.producer_tail - r.consumer_head)).map
    (fun i => r.queue.getD (i &&& (r.size - 1)) NULL)

/-- States reachable by complete sequential calls: power-of-two size,
slot array of length `size`, `consumer_head ≤ producer_tail`, the
between-calls identity `producer_tail = producer_head`, and occupancy at
most `size - 1`. -/
structure SeqValid (r : mpmc_ptr_ring) : Prop where
  pow : ∃ k, r.size = 2 ^ k
  len : r.queue.length = r.size
  hcp : r.consumer_head ≤ r.producer_tail
  seq : r.producer_tail = r.producer_head
  occ : r.producer_tail - r.consumer_head ≤ r.size - 1

/-- Fold `mpmc_ptr_ring_produce` over a list of values, requiring every
call to succeed (return `0`). -/
def produceList (r : mpmc_ptr_ring) : List Ptr → Option mpmc_ptr_ring
  | [] => some r
  | v :: vs =>
    let res := mpmc_ptr_ring_produce r v
    if res.1 = 0 then produceList res.2 vs else none

/-- Run `mpmc_ptr_ring_consume` `n` times, collecting the returned
values in order. -/
def consumeN (r : mpmc_ptr_ring) : Nat → List Ptr × mpmc_ptr_ring
  | 0 => ([], r)
  | n + 1 =>
    let res := mpmc_ptr_ring_consume r
    let rest := consumeN res.2 n
    (res.1 :: rest.1, rest.2)

section BitLemmas

/-- Masking with `2^k - 1` is reduction modulo `2^k`: the C idiom
`i & (size - 1)` computes `i % size` for power-of-two sizes. -/
theorem land_two_pow_sub_one (n k : Nat) : n &&& (2 ^ k - 1) = n % 2 ^ k := by
  apply Nat.eq_of_testBit_eq
  intro j
  rw [Nat.testBit_land, Nat.testBit_mod_two_pow, Nat.testBit_two_pow_sub_one]
  cases Nat.testBit n j <;> simp

/-- A nonzero number with `n & (n - 1) = 0` is a power of two. -/
theorem land_pred_zero_pow2 : ∀ n : Nat, n ≠ 0 → n &&& (n - 1) = 0 → ∃ k, n = 2 ^ k := by
  intro n
  induction n using Nat.strong_induction_on with
  | _ n ih =>
    intro hne hland
    rcases Nat.even_or_odd n with he | ho
    · obtain ⟨m, hm⟩ := he
      have hm0 : m ≠ 0 := by omega
      have hml : m &&& (m - 1) = 0 := by
        apply Nat.eq_of_testBit_eq
        intro j
        have step : (n &&& (n - 1)).testBit (j + 1) = Nat.testBit 0 (j + 1) := by
          rw [hland]
        have h1 : n / 2 = m := by omega
        have h2 : (n - 1) / 2 = m - 1 := by omega
        rw [Nat.testBit_land, Nat.testBit_succ, Nat.testBit_succ, h1, h2,
          Nat.zero_testBit] at step
        rw [Nat.testBit_land, Nat.zero_testBit]
        exact step
      obtain ⟨k, hk⟩ := ih m (by omega) hm0 hml
      exact ⟨k + 1, by rw [pow_succ]; omega⟩
    · obtain ⟨m, hm⟩ := ho
      rcases Nat.eq_zero_or_pos m with hm0 | hm0
      · exact ⟨0, by omega⟩
      · exfalso
        have key : ∀ j, m.testBit j = false := by
          intro j
          have step : (n &&& (n - 1)).testBit (j + 1) = Nat.testBit 0 (j + 1) := by
            rw [hland]
          have h1 : n / 2 = m := by omega
          have h2 : (n - 1) / 2 = m := by omega
          rw [Nat.testBit_land, Nat.testBit_succ, Nat.testBit_succ, h1, h2,
            Nat.zero_testBit] at step
          simpa using step
        have : m = 0 := Nat.eq_of_testBit_eq (fun j => by rw [key j, Nat.zero_testBit])
        omega

/-- `is_power_of_2` decides exactly the powers of two, matching its Linux
documentation. -/
theorem is_power_of_2_iff (n : Nat) : is_power_of_2 n = true ↔ ∃ k, n = 2 ^ k := by
  unfold is_power_of_2
  constructor
  · intro h
    simp only [Bool.and_eq_true, bne_iff_ne, ne_eq, beq_iff_eq] at h
    exact land_pred_zero_pow2 n h.1 h.2
  · rintro ⟨k, rfl⟩
    have h1 : (2 : Nat) ^ k ≠ 0 := by positivity
    have h2 : 2 ^ k &&& (2 ^ k - 1) = 0 := by
      rw [land_two_pow_sub_one]
      exact Nat.mod_self _
    simp [h1, h2]

end BitLemmas

section ListHelpers

/-- `getD` after `set` at a different index. -/
theorem getD_set_ne (l : List Ptr) (a b : Nat) (x d : Ptr) (h : a ≠ b) :
    (l.set a x).getD b d = l.getD b d := by
  simp [List.getD_eq_getElem?_getD, List.getElem?_set_ne h]

/-- `getD` after `set` at the same, in-bounds index. -/
theorem getD_set_self (l : List Ptr) (a : Nat) (x d : Ptr) (h : a < l.length) :
    (l.set a x).getD a d = x := by
  simp [List.getD_eq_getElem?_getD, List.getElem?_set_self h]

/-- Two logical indices less than `size` apart land in distinct slots. -/
theorem slot_ne (size i j : Nat) (hij : i < j) (hlt : j - i < size) :
    i % size ≠ j % size := by
  intro heq
  have hdvd : size ∣ j - i := (Nat.modEq_iff_dvd' (le_of_lt hij)).mp heq
  have := Nat.le_of_dvd (by omega) hdvd
  omega

end ListHelpers

section SeqLemmas

/-- Unfolding `mpmc_ptr_ring_produce` in the full case: the capacity test
fails, the re-read of `producer_head` is unchanged, `-ENOSPC`, no state
change. -/
theorem produce_full (r : mpmc_ptr_ring) (v : Ptr)
    (h : ¬ r.producer_head - r.consumer_head < r.size - 1) :
    mpmc_ptr_ring_produce r v = (-ENOSPC, r) := by
  unfold mpmc_ptr_ring_produce
  simp [h]

/-- Unfolding `mpmc_ptr_ring_produce` in the successful case, with the
slot index rewritten from `p & (size - 1)` to `p % size`. -/
theorem produce_ok (r : mpmc_ptr_ring) (v : Ptr) (hp : ∃ k, r.size = 2 ^ k)
    (h : r.producer_head - r.consumer_head < r.size - 1) :
    mpmc_ptr_ring_produce r v =
      (0, { r with queue := r.queue.set (r.producer_head % r.size) v,
                   producer_head := r.producer_head + 1,
                   producer_tail := r.producer_head + 1 }) := by
  obtain ⟨k, hk⟩ := hp
  unfold mpmc_ptr_ring_produce
  simp only [h, if_pos]
  rw [hk, land_two_pow_sub_one]

/-- Unfolding `mpmc_ptr_ring_consume` on an empty ring. -/
theorem consume_empty (r : mpmc_ptr_ring) (h : r.producer_tail = r.consumer_head) :
    mpmc_ptr_ring_consume r = (NULL, r) := by
  unfold mpmc_ptr_ring_consume
  simp [h]

/-- Unfolding `mpmc_ptr_ring_consume` on a nonempty ring. -/
theorem consume_nonempty (r : mpmc_ptr_ring) (h : r.producer_tail ≠ r.consumer_head) :
    mpmc_ptr_ring_consume r =
      (r.queue.getD (r.consumer_head &&& (r.size - 1)) NULL,
       { r with consumer_head := r.consumer_head + 1 }) := by
  unfold mpmc_ptr_ring_consume
  simp [h]

/-- The ring is abstractly empty iff the two consumer-visible indices
coincide (under `consumer_head ≤ producer_tail`). -/
theorem contents_eq_nil (r : mpmc_ptr_ring) (hcp : r.consumer_head ≤ r.producer_tail) :
    contents r = [] ↔ r.producer_tail = r.consumer_head := by
  unfold contents
  simp only [List.map_eq_nil_iff, List.range'_eq_nil]
  omega

/-- `contents` has length `producer_tail - consumer_head`. -/
theorem contents_length (r : mpmc_ptr_ring) :
    (contents r).length = r.producer_tail - r.consumer_head := by
  unfold contents
  simp

/-- A successful produce appends the value to the abstract contents and
preserves `SeqValid`. -/
theorem produce_ok_spec (r : mpmc_ptr_ring) (v : Ptr) (hv : SeqValid r)
    (hroom : r.producer_tail - r.consumer_head < r.size - 1) :
    (mpmc_ptr_ring_produce r v).1 = 0 ∧
    SeqValid (mpmc_ptr_ring_produce r v).2 ∧
    contents (mpmc_ptr_ring_produce r v).2 = contents r ++ [v] ∧
    (mpmc_ptr_ring_produce r v).2.size = r.size ∧
    (mpmc_ptr_ring_produce r v).2.consumer_head = r.consumer_head ∧
    (mpmc_ptr_ring_produce r v).2.producer_tail = r.producer_tail + 1 := by
  obtain ⟨k, hk⟩ := hv.pow
  have hsz : 0 < r.size := by rw [hk]; positivity
  have hph : r.producer_head - r.consumer_head < r.size - 1 := by
    rw [← hv.seq]; exact hroom
  have hcp := hv.hcp
  have hseq := hv.seq
  rw [produce_ok r v ⟨k, hk⟩ hph]
  refine ⟨rfl, ?_, ?_, rfl, rfl, by simp; omega⟩
  · exact ⟨⟨k, hk⟩, by simpa using hv.len, by simp; omega,
      by simp, by simp; omega⟩
  · unfold contents
    simp only
    rw [← hseq]
    have hn : r.producer_tail + 1 - r.consumer_head =
        (r.producer_tail - r.consumer_head) + 1 := by omega
    rw [hn]
    rw [show List.range' r.consumer_head ((r.producer_tail - r.consumer_head) + 1) =
        List.range' r.consumer_head (r.producer_tail - r.consumer_head) ++
          [r.consumer_head + (r.producer_tail - r.consumer_head)] from by
      simpa using @List.range'_concat 1 r.consumer_head (r.producer_tail - r.consumer_head)]
    have hpt : r.consumer_head + (r.producer_tail - r.consumer_head) = r.producer_tail := by
      omega
    rw [hpt, List.map_append]
    congr 1
    · apply List.map_congr_left
      intro i hi
      rw [List.mem_range'_1] at hi
      have hi2 : i < r.producer_tail := by omega
      rw [hk, land_two_pow_sub_one]
      apply getD_set_ne
      intro heq
      exact slot_ne (2 ^ k) i r.producer_tail hi2 (by omega) (by rw [heq])
    · simp only [List.map_cons, List.map_nil]
      congr 1
      rw [hk, land_two_pow_sub_one]
      apply getD_set_self
      rw [hv.len, hk]
      exact Nat.mod_lt _ (by positivity)

/-- A consume on a ring with contents `v :: l` returns `v`, leaves
contents `l`, and preserves `SeqValid`. -/
theorem consume_cons_spec (r : mpmc_ptr_ring) (v : Ptr) (l : List Ptr)
    (hv : SeqValid r) (hc : contents r = v :: l) :
    (mpmc_ptr_ring_consume r).1 = v ∧
    SeqValid (mpmc_ptr_ring_consume r).2 ∧
    contents (mpmc_ptr_ring_consume r).2 = l ∧
    (mpmc_ptr_ring_consume r).2 =
      { r with consumer_head := r.consumer_head + 1 } := by
  have hlen := contents_length r
  rw [hc] at hlen
  simp only [List.length_cons] at hlen
  have hne : r.producer_tail ≠ r.consumer_head := by omega
  rw [consume_nonempty r hne]
  have hdecomp : contents r =
      r.queue.getD (r.consumer_head &&& (r.size - 1)) NULL ::
        (List.range' (r.consumer_head + 1) (r.producer_tail - r.consumer_head - 1)).map
          (fun i => r.queue.getD (i &&& (r.size - 1)) NULL) := by
    unfold contents
    rw [show r.producer_tail - r.consumer_head =
        (r.producer_tail - r.consumer_head - 1) + 1 from by omega]
    rw [List.range'_succ]
    simp
  rw [hc] at hdecomp
  have hocc := hv.occ
  refine ⟨(List.cons.injEq _ _ _ _ ▸ hdecomp).1.symm, ?_, ?_, rfl⟩
  · exact ⟨hv.pow, by simpa using hv.len, by simp; omega,
      by simpa using hv.seq, by simp; omega⟩
  · unfold contents
    simp only
    rw [show r.producer_tail - (r.consumer_head + 1) =
        r.producer_tail - r.consumer_head - 1 from by omega]
    exact (List.cons.injEq _ _ _ _ ▸ hdecomp).2.symm

/-- Producing a list of values into a ring with enough free room: every
call succeeds and the abstract contents grow by exactly that list. -/
theorem produceList_ok : ∀ (vs : List Ptr) (r : mpmc_ptr_ring), SeqValid r →
    r.producer_tail - r.consumer_head + vs.length ≤ r.size - 1 →
    ∃ r2, produceList r vs = some r2 ∧ SeqValid r2 ∧
      contents r2 = contents r ++ vs ∧
      r2.size = r.size ∧ r2.consumer_head = r.consumer_head ∧
      r2.producer_tail = r.producer_tail + vs.length := by
  intro vs
  induction vs with
  | nil =>
    intro r hv _
    exact ⟨r, rfl, hv, by simp, rfl, rfl, by simp⟩
  | cons v vs ih =>
    intro r hv hroom
    have hroom1 : r.producer_tail - r.consumer_head < r.size - 1 := by
      simp only [List.length_cons] at hroom
      omega
    obtain ⟨h0, hval, hcont, hsz, hch, hpt⟩ := produce_ok_spec r v hv hroom1
    obtain ⟨r2, heq, hval2, hcont2, hsz2, hch2, hpt2⟩ :=
      ih (mpmc_ptr_ring_produce r v).2 hval
        (by simp only [List.length_cons] at hroom; rw [hsz, hch, hpt]; omega)
    refine ⟨r2, ?_, hval2, ?_, by rw [hsz2, hsz], by rw [hch2, hch], ?_⟩
    · unfold produceList
      simp only [h0, if_pos]
      exact heq
    · rw [hcont2, hcont]
      simp
    · rw [hpt2, hpt]
      simp only [List.length_cons]
      omega

/-- Consuming as many times as the ring holds elements returns exactly the
abstract contents, in order, and leaves the ring empty. -/
theorem consumeN_drain : ∀ (l : List Ptr) (r : mpmc_ptr_ring), SeqValid r →
    contents r = l →
    (consumeN r l.length).1 = l ∧ SeqValid (consumeN r l.length).2 ∧
    contents (consumeN r l.length).2 = [] := by
  intro l
  induction l with
  | nil =>
    intro r hv hc
    exact ⟨rfl, hv, hc⟩
  | cons v l ih =>
    intro r hv hc
    obtain ⟨h1, hval, hcont, _⟩ := consume_cons_spec r v l hv hc
    obtain ⟨ih1, ih2, ih3⟩ := ih (mpmc_ptr_ring_consume r).2 hval hcont
    rw [List.length_cons]
    simp only [consumeN]
    exact ⟨by rw [h1, ih1], ih2, ih3⟩

/-- `mpmc_ptr_ring_init` on a power-of-two size with a successful
allocation yields `freshRing size`. -/
theorem init_ok (r : mpmc_ptr_ring) (size : Nat) (h : ∃ k, size = 2 ^ k) :
    mpmc_ptr_ring_init r size true = (0, freshRing size) := by
  have hp : is_power_of_2 size = true := (is_power_of_2_iff size).mpr h
  unfold mpmc_ptr_ring_init freshRing
  simp [hp]

/-- `freshRing` of a power-of-two size is a valid sequential state. -/
theorem freshRing_valid (k : Nat) : SeqValid (freshRing (2 ^ k)) :=
  ⟨⟨k, rfl⟩, by simp [freshRing], by simp [freshRing], by simp [freshRing],
    by simp [freshRing]⟩

/-- A fresh ring is abstractly empty. -/
theorem freshRing_contents (n : Nat) : contents (freshRing n) = [] := by
  simp [contents, freshRing]

end SeqLemmas

section ConcurrentConsumers

/-- Local state of one consumer thread executing the `for (;;)` loop of
`mpmc_ptr_ring_consume`, repeatedly, until it observes an empty ring:

* `start` — about to read `consumer_head` and `producer_tail`;
* `cas c elem` — read `c = consumer_head`, saw `producer_tail ≠ c`, read
  `elem = queue[c & mask]`, about to `cmpxchg(&consumer_head, c, c+1)`;
* `finished` — observed `producer_tail == consumer_head` and returned
  `NULL`.

Because the producer side is quiescent, `producer_tail` and the slot
array are constant, so reading them in the same step as `consumer_head`
loses no interleavings: only the `consumer_head` accesses race. -/
inductive CStatus where
  | start : CStatus
  | cas (c : Nat) (elem : Ptr) : CStatus
  | finished : CStatus
deriving Repr, DecidableEq

/-- Global state of the multi-consumer race: the ring, one `CStatus` per
thread, and the delivery log — one entry `(thread, logical index, value)`
per successful `cmpxchg`, in commit order. -/
structure CSys where
  ring : mpmc_ptr_ring
  threads : List CStatus
  log : List (Nat × Nat × Ptr)
deriving Repr, DecidableEq

/-- Interleaved small-step semantics of `N` concurrent consumers.  Each
step is one atomic access of thread `i`:
the combined read of `consumer_head`/`producer_tail`/slot (justified
above), or the `cmpxchg` on `consumer_head`, which succeeds exactly when
`consumer_head` still equals the thread's stale copy `c`. -/
inductive ConsumerStep : CSys → CSys → Prop where
  | read_empty (s : CSys) (i : Nat)
      (hth : s.threads[i]? = some .start)
      (hcp : s.ring.consumer_head = s.ring.producer_tail) :
      ConsumerStep s { s with threads := s.threads.set i .finished }
  | read_elem (s : CSys) (i : Nat)
      (hth : s.threads[i]? = some .start)
      (hcp : s.ring.consumer_head ≠ s.ring.producer_tail) :
      ConsumerStep s { s with threads := s.threads.set i (CStatus.cas s.ring.consumer_head (s.ring.queue.getD (s.ring.consumer_head &&& (s.ring.size - 1)) NULL)) }
  | cas_success (s : CSys) (i : Nat) (c : Nat) (e : Ptr)
      (hth : s.threads[i]? = some (.cas c e))
      (hcas : s.ring.consumer_head = c) :
      ConsumerStep s { ring := { s.ring with consumer_head := c + 1 },
                       threads := s.threads.set i .start,
                       log := s.log ++ [(i, c, e)] }
  | cas_fail (s : CSys) (i : Nat) (c : Nat) (e : Ptr)
      (hth : s.threads[i]? = some (.cas c e))
      (hcas : s.ring.consumer_head ≠ c) :
      ConsumerStep s { s with threads := s.threads.set i .start }

/-- Initial state of the race: `n` consumer threads at the top of the
loop, empty log. -/
def initCSys (r : mpmc_ptr_ring) (n : Nat) : CSys :=
  ⟨r, List.replicate n .start, []⟩

/-- Invariant of the consumer race over a quiesced ring `r0`:
the read-only fields are unchanged, `consumer_head` moves monotonically
from its initial value toward `producer_tail`, the log records exactly
the logical indices `r0.consumer_head, …, consumer_head - 1` in order
with the correct slot values and a valid thread per entry, every pending
`cmpxchg` argument was read below `producer_tail` with its slot value,
and once any thread has observed emptiness `consumer_head` has reached
`producer_tail` for good. -/
structure CInv (r0 : mpmc_ptr_ring) (n : Nat) (s : CSys) : Prop where
  queue_eq : s.ring.queue = r0.queue
  size_eq : s.ring.size = r0.size
  pt_eq : s.ring.producer_tail = r0.producer_tail
  ch_lb : r0.consumer_head ≤ s.ring.consumer_head
  ch_ub : s.ring.consumer_head ≤ r0.producer_tail
  nthreads : s.threads.length = n
  log_idx : s.log.map (fun e => e.2.1) =
    List.range' r0.consumer_head (s.ring.consumer_head - r0.consumer_head)
  log_val : ∀ e ∈ s.log, e.1 < n ∧
    e.2.2 = r0.queue.getD (e.2.1 &&& (r0.size - 1)) NULL
  cas_ok : ∀ (i c : Nat) (el : Ptr), s.threads[i]? = some (CStatus.cas c el) →
    c < r0.producer_tail ∧ el = r0.queue.getD (c &&& (r0.size - 1)) NULL
  fin_ch : (∃ i : Nat, s.threads[i]? = some CStatus.finished) →
    s.ring.consumer_head = r0.producer_tail

/-- The invariant holds initially. -/
theorem CInv_init (r0 : mpmc_ptr_ring) (n : Nat)
    (hr : r0.consumer_head ≤ r0.producer_tail) : CInv r0 n (initCSys r0 n) := by
  refine ⟨rfl, rfl, rfl, le_refl _, hr, by simp [initCSys], by simp [initCSys],
    by simp [initCSys], ?_, ?_⟩
  · intro i c el h
    simp only [initCSys, List.getElem?_replicate] at h
    split at h
    · simp at h
    · simp at h
  · rintro ⟨i, h⟩
    simp only [initCSys, List.getElem?_replicate] at h
    split at h
    · simp at h
    · simp at h

/-- One interleaved step preserves the invariant. -/
theorem CInv_step (r0 : mpmc_ptr_ring) (n : Nat) (s s2 : CSys)
    (hinv : CInv r0 n s) (hstep : ConsumerStep s s2) : CInv r0 n s2 := by
  obtain ⟨hq, hsz, hpt, hlb, hub, hn, hlog, hval, hcas, hfin⟩ := hinv
  cases hstep with
  | read_empty i hth hcp =>
    have hi_lt : i < s.threads.length := (List.getElem?_eq_some.mp hth).1
    refine ⟨hq, hsz, hpt, hlb, hub, by simpa using hn, hlog, hval, ?_, ?_⟩
    · intro j c el h
      by_cases hij : i = j
      · subst hij
        rw [List.getElem?_set_self hi_lt] at h
        simp at h
      · rw [List.getElem?_set_ne hij] at h
        exact hcas j c el h
    · intro _
      rw [← hpt]
      exact hcp
  | read_elem i hth hcp =>
    have hi_lt : i < s.threads.length := (List.getElem?_eq_some.mp hth).1
    have hch_lt : s.ring.consumer_head < r0.producer_tail := by
      have hne2 : s.ring.consumer_head ≠ r0.producer_tail := by
        rw [← hpt]
        exact hcp
      omega
    refine ⟨hq, hsz, hpt, hlb, hub, by simpa using hn, hlog, hval, ?_, ?_⟩
    · intro j c el h
      by_cases hij : i = j
      · subst hij
        rw [List.getElem?_set_self hi_lt] at h
        simp only [Option.some.injEq, CStatus.cas.injEq] at h
        obtain ⟨hc, hel⟩ := h
        subst hc
        subst hel
        exact ⟨hch_lt, by rw [hq, hsz]⟩
      · rw [List.getElem?_set_ne hij] at h
        exact hcas j c el h
    · rintro ⟨j, h⟩
      apply hfin
      by_cases hij : i = j
      · subst hij
        rw [List.getElem?_set_self hi_lt] at h
        simp at h
      · rw [List.getElem?_set_ne hij] at h
        exact ⟨j, h⟩
  | cas_success i c e hth hcas2 =>
    have hi_lt : i < s.threads.length := (List.getElem?_eq_some.mp hth).1
    have hc_lt : c < r0.producer_tail := (hcas i c e hth).1
    have he : e = r0.queue.getD (c &&& (r0.size - 1)) NULL := (hcas i c e hth).2
    have hlb2 : r0.consumer_head ≤ c := by
      rw [hcas2] at hlb
      exact hlb
    refine ⟨hq, hsz, hpt, by simp; omega, by simpa using hc_lt, by simpa using hn,
      ?_, ?_, ?_, ?_⟩
    · simp only [List.map_append, List.map_cons, List.map_nil]
      rw [hlog, hcas2]
      rw [show c + 1 - r0.consumer_head = (c - r0.consumer_head) + 1 from by omega]
      rw [show List.range' r0.consumer_head ((c - r0.consumer_head) + 1) =
          List.range' r0.consumer_head (c - r0.consumer_head) ++
            [r0.consumer_head + (c - r0.consumer_head)] from by
        simpa using @List.range'_concat 1 r0.consumer_head (c - r0.consumer_head)]
      rw [show r0.consumer_head + (c - r0.consumer_head) = c from by omega]
    · intro e2 he2
      simp only [List.mem_append, List.mem_cons, List.not_mem_nil, or_false] at he2
      rcases he2 with h2 | h2
      · exact hval e2 h2
      · subst h2
        refine ⟨by rw [← hn]; exact hi_lt, he⟩
    · intro j c2 el2 h
      by_cases hij : i = j
      · subst hij
        rw [List.getElem?_set_self hi_lt] at h
        simp at h
      · rw [List.getElem?_set_ne hij] at h
        exact hcas j c2 el2 h
    · rintro ⟨j, h⟩
      exfalso
      by_cases hij : i = j
      · subst hij
        rw [List.getElem?_set_self hi_lt] at h
        simp at h
      · rw [List.getElem?_set_ne hij] at h
        have := hfin ⟨j, h⟩
        omega
  | cas_fail i c e hth hcas2 =>
    have hi_lt : i < s.threads.length := (List.getElem?_eq_some.mp hth).1
    refine ⟨hq, hsz, hpt, hlb, hub, by simpa using hn, hlog, hval, ?_, ?_⟩
    · intro j c2 el2 h
      by_cases hij : i = j
      · subst hij
        rw [List.getElem?_set_self hi_lt] at h
        simp at h
      · rw [List.getElem?_set_ne hij] at h
        exact hcas j c2 el2 h
    · rintro ⟨j, h⟩
      apply hfin
      by_cases hij : i = j
      · subst hij
        rw [List.getElem?_set_self hi_lt] at h
        simp at h
      · rw [List.getElem?_set_ne hij] at h
        exact ⟨j, h⟩


/-- The invariant holds in every reachable state of the race. -/
theorem CInv_reach (r0 : mpmc_ptr_ring) (n : Nat)
    (hr : r0.consumer_head ≤ r0.producer_tail) (s : CSys)
    (h : Relation.ReflTransGen ConsumerStep (initCSys r0 n) s) :
    CInv r0 n s := by
  induction h with
  | refl => exact CInv_init r0 n hr
  | tail _ hstep ih => exact CInv_step r0 n _ _ ih hstep

end ConcurrentConsumers

section MoreSeqLemmas

/-- If `produceList` succeeds at all, the abstract contents grow by the
produced list (the success of each call certifies the room check). -/
theorem produceList_sound : ∀ (vs : List Ptr) (r r2 : mpmc_ptr_ring), SeqValid r →
    produceList r vs = some r2 →
    SeqValid r2 ∧ contents r2 = contents r ++ vs := by
  intro vs
  induction vs with
  | nil =>
    intro r r2 hv h
    simp only [produceList, Option.some.injEq] at h
    subst h
    exact ⟨hv, by simp⟩
  | cons v vs ih =>
    intro r r2 hv h
    simp only [produceList] at h
    by_cases hg : r.producer_head - r.consumer_head < r.size - 1
    · have hroom : r.producer_tail - r.consumer_head < r.size - 1 := by
        rw [hv.seq]; exact hg
      obtain ⟨h0, hval, hcont, _, _, _⟩ := produce_ok_spec r v hv hroom
      rw [h0] at h
      simp only [if_pos] at h
      obtain ⟨hval2, hcont2⟩ := ih _ r2 hval h
      refine ⟨hval2, ?_⟩
      rw [hcont2, hcont]
      simp
    · rw [produce_full r v hg] at h
      simp only at h
      rw [if_neg (by unfold ENOSPC; omega)] at h
      exact absurd h (by simp)

/-- The cleanup drain loop, run with enough fuel on a valid ring holding
no null elements, consumes every element in order and stops on empty. -/
theorem cleanupDrain_spec : ∀ (l : List Ptr) (r : mpmc_ptr_ring) (fuel : Nat),
    SeqValid r → contents r = l → (∀ v ∈ l, v ≠ NULL) → l.length < fuel →
    (cleanupDrain fuel r).1 = l ∧
    (cleanupDrain fuel r).2.consumer_head = (cleanupDrain fuel r).2.producer_tail ∧
    (cleanupDrain fuel r).2.queue = r.queue := by
  intro l
  induction l with
  | nil =>
    intro r fuel hv hc _ hfuel
    obtain ⟨fuel, rfl⟩ : ∃ f, fuel = f + 1 := ⟨fuel - 1, by omega⟩
    have hpt : r.producer_tail = r.consumer_head :=
      (contents_eq_nil r hv.hcp).mp hc
    simp only [cleanupDrain, consume_empty r hpt]
    simp [hpt]
  | cons v l ih =>
    intro r fuel hv hc hnn hfuel
    obtain ⟨fuel, rfl⟩ : ∃ f, fuel = f + 1 := ⟨fuel - 1, by omega⟩
    obtain ⟨h1, hval, hcont, _⟩ := consume_cons_spec r v l hv hc
    have hvne : v ≠ NULL := hnn v (by simp)
    simp only [cleanupDrain, h1, if_neg hvne]
    have hq : (mpmc_ptr_ring_consume r).2.queue = r.queue := by
      rw [consume_nonempty r]
      intro heq
      rw [(contents_eq_nil r hv.hcp).mpr heq] at hc
      exact absurd hc (by simp)
    obtain ⟨ih1, ih2, ih3⟩ := ih (mpmc_ptr_ring_consume r).2 fuel hval hcont
      (fun w hw => hnn w (by simp [hw])) (by simp at hfuel ⊢; omega)
    exact ⟨by rw [ih1], ih2, by rw [ih3, hq]⟩

/-- Unfolding `mpmc_ptr_ring_produce` in the successful case, slot index
left in raw masked form. -/
theorem produce_ok_raw (r : mpmc_ptr_ring) (v : Ptr)
    (hg : r.producer_head - r.consumer_head < r.size - 1) :
    mpmc_ptr_ring_produce r v =
      (0, { r with queue := r.queue.set (r.producer_head &&& (r.size - 1)) v,
                   producer_head := r.producer_head + 1,
                   producer_tail := r.producer_head + 1 }) := by
  unfold mpmc_ptr_ring_produce
  simp [hg]

/-- `mpmc_ptr_ring_init` rejects a non-power-of-two size untouched. -/
theorem init_invalid (r : mpmc_ptr_ring) (n : Nat) (ok : Bool)
    (h : ¬ ∃ k, n = 2 ^ k) :
    mpmc_ptr_ring_init r n ok = (-EINVAL, r) := by
  have hp : is_power_of_2 n = false := by
    rw [← Bool.not_eq_true]
    intro hc
    exact h ((is_power_of_2_iff n).mp hc)
  unfold mpmc_ptr_ring_init
  simp [hp]

/-- `mpmc_ptr_ring_init` under allocation failure: validation passed, so
`size` and the three counters are already written and `queue` holds the
null pointer when `-ENOMEM` is returned. -/
theorem init_alloc_fail (r : mpmc_ptr_ring) (n : Nat) (h : ∃ k, n = 2 ^ k) :
    mpmc_ptr_ring_init r n false = (-ENOMEM, ⟨[], n, 0, 0, 0⟩) := by
  have hp := (is_power_of_2_iff n).mpr h
  unfold mpmc_ptr_ring_init
  simp [hp]

end MoreSeqLemmas

/-- The claimed counter invariant `consumer_head ≤ producer_tail ≤
producer_head` (as unbounded integers). -/
def ringInv (r : mpmc_ptr_ring) : Prop :=
  r.consumer_head ≤ r.producer_tail ∧ r.producer_tail ≤ r.producer_head

/-- C1: in any sequential execution the ring is a FIFO queue — producing
`v1, …, vn` into an empty ring (every call succeeding) and then consuming
`n` times returns exactly `v1, …, vn` in that order, none reordered,
duplicated or dropped, leaving the ring empty; in particular a successful
`produce(v)` immediately followed by `consume()` on an otherwise-idle ring
returns exactly `v`. -/
theorem ring_fifo_order (r : mpmc_ptr_ring) (hv : SeqValid r)
    (hempty : contents r = []) :
    (∀ (vs : List Ptr) (r2 : mpmc_ptr_ring), produceList r vs = some r2 →
      (consumeN r2 vs.length).1 = vs ∧ contents (consumeN r2 vs.length).2 = []) ∧
    (∀ v : Ptr, (mpmc_ptr_ring_produce r v).1 = 0 →
      (mpmc_ptr_ring_consume (mpmc_ptr_ring_produce r v).2).1 = v) := by
  constructor
  · intro vs r2 hp
    obtain ⟨hval2, hcont2⟩ := produceList_sound vs r r2 hv hp
    rw [hempty] at hcont2
    simp only [List.nil_append] at hcont2
    obtain ⟨d1, _, d3⟩ := consumeN_drain vs r2 hval2 hcont2
    exact ⟨d1, d3⟩
  · intro v h0
    by_cases hg : r.producer_head - r.consumer_head < r.size - 1
    · have hroom : r.producer_tail - r.consumer_head < r.size - 1 := by
        rw [hv.seq]; exact hg
      obtain ⟨_, hval, hcont, _⟩ := produce_ok_spec r v hv hroom
      rw [hempty] at hcont
      simp only [List.nil_append] at hcont
      exact (consume_cons_spec _ v [] hval hcont).1
    · rw [produce_full r v hg] at h0
      have h0ne : (-ENOSPC : Int) = 0 := h0
      exact absurd h0ne (by decide)

/-- C2: a ring of power-of-two capacity `C` accepts exactly `C − 1`
produces from empty — any `C − 1` values go in successfully, the `C`-th
produce returns `-ENOSPC` leaving the ring unchanged, and after one
successful consume (possible when `C ≥ 2`) the next produce succeeds
again. -/
theorem ring_capacity_bound (k : Nat) (vs : List Ptr) (w x : Ptr)
    (hlen : vs.length = 2 ^ k - 1) :
    ∃ r2, produceList (freshRing (2 ^ k)) vs = some r2 ∧
      mpmc_ptr_ring_produce r2 w = (-ENOSPC, r2) ∧
      (2 ≤ 2 ^ k →
        (mpmc_ptr_ring_produce (mpmc_ptr_ring_consume r2).2 x).1 = 0) := by
  have hv := freshRing_valid k
  obtain ⟨r2, hp, hval2, hcont2, hsz2, hch2, hpt2⟩ :=
    produceList_ok vs (freshRing (2 ^ k)) hv (by simp [freshRing, hlen])
  have hfr_pt : (freshRing (2 ^ k)).producer_tail = 0 := rfl
  have hfr_ch : (freshRing (2 ^ k)).consumer_head = 0 := rfl
  have hfr_sz : (freshRing (2 ^ k)).size = 2 ^ k := rfl
  rw [hfr_pt] at hpt2
  rw [hfr_ch] at hch2
  rw [hfr_sz] at hsz2
  have hone : 1 ≤ 2 ^ k := Nat.one_le_two_pow
  refine ⟨r2, hp, ?_, ?_⟩
  · apply produce_full
    rw [← hval2.seq, hpt2, hch2, hsz2, hlen]
    omega
  · intro h2
    have hvs_ne : vs ≠ [] := by
      intro hnil
      rw [hnil] at hlen
      simp at hlen
      omega
    obtain ⟨v, l, rfl⟩ := List.exists_cons_of_ne_nil hvs_ne
    simp only [List.length_cons] at hlen
    rw [freshRing_contents, List.nil_append] at hcont2
    obtain ⟨_, hval3, hcont3, hstate3⟩ := consume_cons_spec r2 v l hval2 hcont2
    have hlen3 : (mpmc_ptr_ring_consume r2).2.producer_tail
        - (mpmc_ptr_ring_consume r2).2.consumer_head = l.length := by
      rw [← contents_length, hcont3]
    have hsz3 : (mpmc_ptr_ring_consume r2).2.size = 2 ^ k := by
      rw [hstate3]
      exact hsz2
    have hroom3 : (mpmc_ptr_ring_consume r2).2.producer_tail
        - (mpmc_ptr_ring_consume r2).2.consumer_head
        < (mpmc_ptr_ring_consume r2).2.size - 1 := by
      rw [hlen3, hsz3]
      omega
    exact (produce_ok_spec _ x hval3 hroom3).1

/-- C3: the invariant `consumer_head ≤ producer_tail ≤ producer_head`
holds after a successful `init` (where the occupied count
`producer_tail − consumer_head` is `0`) and is preserved by every
sequential produce and consume; a successful produce raises the occupied
count by one, a consume on a nonempty ring lowers it by one, and a
consume on an empty ring (its emptiness precondition failing) changes
nothing. -/
theorem ring_counter_invariant :
    (∀ (r : mpmc_ptr_ring) (n : Nat) (ok : Bool),
      (mpmc_ptr_ring_init r n ok).1 = 0 →
      ringInv (mpmc_ptr_ring_init r n ok).2 ∧
      (mpmc_ptr_ring_init r n ok).2.producer_tail
        - (mpmc_ptr_ring_init r n ok).2.consumer_head = 0) ∧
    (∀ (r : mpmc_ptr_ring) (v : Ptr), ringInv r →
      ringInv (mpmc_ptr_ring_produce r v).2 ∧
      (r.producer_tail = r.producer_head → (mpmc_ptr_ring_produce r v).1 = 0 →
        (mpmc_ptr_ring_produce r v).2.producer_tail
          - (mpmc_ptr_ring_produce r v).2.consumer_head
          = (r.producer_tail - r.consumer_head) + 1) ∧
      ((mpmc_ptr_ring_produce r v).1 ≠ 0 → (mpmc_ptr_ring_produce r v).2 = r)) ∧
    (∀ r : mpmc_ptr_ring, ringInv r →
      ringInv (mpmc_ptr_ring_consume r).2 ∧
      (r.producer_tail ≠ r.consumer_head →
        (mpmc_ptr_ring_consume r).2.producer_tail
          - (mpmc_ptr_ring_consume r).2.consumer_head
          = (r.producer_tail - r.consumer_head) - 1) ∧
      (r.producer_tail = r.consumer_head → (mpmc_ptr_ring_consume r).2 = r)) := by
  refine ⟨?_, ?_, ?_⟩
  · intro r n ok h0
    by_cases hp : ∃ k, n = 2 ^ k
    · cases ok with
      | true =>
        rw [init_ok r n hp]
        exact ⟨⟨le_refl 0, le_refl 0⟩, rfl⟩
      | false =>
        rw [init_alloc_fail r n hp] at h0
        have h0ne : (-ENOMEM : Int) = 0 := h0
        exact absurd h0ne (by decide)
    · rw [init_invalid r n ok hp] at h0
      have h0ne : (-EINVAL : Int) = 0 := h0
      exact absurd h0ne (by decide)
  · intro r v hinv
    obtain ⟨h1, h2⟩ := hinv
    by_cases hg : r.producer_head - r.consumer_head < r.size - 1
    · rw [produce_ok_raw r v hg]
      refine ⟨⟨by dsimp only; omega, by dsimp only; omega⟩, ?_, ?_⟩
      · intro hseq _
        dsimp only
        omega
      · intro hne
        exact absurd rfl hne
    · rw [produce_full r v hg]
      refine ⟨⟨h1, h2⟩, ?_, fun _ => rfl⟩
      intro _ h0
      have h0ne : (-ENOSPC : Int) = 0 := h0
      exact absurd h0ne (by decide)
  · intro r hinv
    obtain ⟨h1, h2⟩ := hinv
    by_cases he : r.producer_tail = r.consumer_head
    · rw [consume_empty r he]
      exact ⟨⟨h1, h2⟩, fun hne => absurd he hne, fun _ => rfl⟩
    · rw [consume_nonempty r he]
      refine ⟨⟨by dsimp only; omega, by dsimp only; exact h2⟩, ?_, ?_⟩
      · intro _
        dsimp only
        omega
      · intro he2
        exact absurd he2 he

/-- C5: `init` rejects any non-power-of-two capacity (such as 0, 3 or 5)
with `-EINVAL`, returning before touching the ring; for a power-of-two
capacity (such as 1, 2, 4 or 1024) it never returns `-EINVAL`, and
succeeds whenever the allocation succeeds. -/
theorem ring_init_capacity_validation (r : mpmc_ptr_ring) (n : Nat) (ok : Bool) :
    ((¬ ∃ k, n = 2 ^ k) → mpmc_ptr_ring_init r n ok = (-EINVAL, r)) ∧
    ((∃ k, n = 2 ^ k) → (mpmc_ptr_ring_init r n ok).1 ≠ -EINVAL) ∧
    ((∃ k, n = 2 ^ k) → ok = true → (mpmc_ptr_ring_init r n ok).1 = 0) := by
  refine ⟨?_, ?_, ?_⟩
  · intro h
    have hp : is_power_of_2 n = false := by
      rw [← Bool.not_eq_true]
      intro hc
      exact h ((is_power_of_2_iff n).mp hc)
    unfold mpmc_ptr_ring_init
    simp [hp]
  · intro h
    cases ok with
    | false =>
      rw [init_alloc_fail r n h]
      exact (by decide : (-ENOMEM : Int) ≠ -EINVAL)
    | true =>
      rw [init_ok r n h]
      exact (by decide : (0 : Int) ≠ -EINVAL)
  · intro h hok
    subst hok
    rw [init_ok r n h]

/-- C6 counterexample: the claim says teardown drains the ring regardless
of whether a destructor is supplied, but `mpmc_ptr_ring_cleanup` only
runs its consume loop when `destroy` is non-null.  On a one-element ring
with no destructor, no consume happens and the ring's own emptiness test
still reports it nonempty afterwards. -/
theorem ring_cleanup_counterexample :
    mpmc_ptr_ring_empty (mpmc_ptr_ring_cleanup ⟨[5, 0], 2, 0, 1, 1⟩ false).2 = false ∧
    (mpmc_ptr_ring_cleanup ⟨[5, 0], 2, 0, 1, 1⟩ false).1 = [] := by
  decide

/-- C6 (amended): when a destructor is supplied, teardown drains the ring
to empty by repeated consume, invoking the destructor exactly once per
held element — on exactly the list of enqueued values, in FIFO order —
before the backing array is released; when no destructor is supplied the
backing array is released without draining (the counters are untouched
and the destructor is, vacuously, never invoked). -/
theorem ring_cleanup_spec (r : mpmc_ptr_ring) (hv : SeqValid r)
    (hnn : ∀ v ∈ contents r, v ≠ NULL) :
    (mpmc_ptr_ring_cleanup r true).1 = contents r ∧
    mpmc_ptr_ring_empty (mpmc_ptr_ring_cleanup r true).2 = true ∧
    (mpmc_ptr_ring_cleanup r true).2.queue = [] ∧
    (mpmc_ptr_ring_cleanup r false).1 = [] ∧
    (mpmc_ptr_ring_cleanup r false).2 = { r with queue := [] } := by
  have hfuel : (contents r).length < r.producer_tail - r.consumer_head + 1 := by
    rw [contents_length]
    omega
  obtain ⟨d1, d2, _⟩ := cleanupDrain_spec (contents r) r
    (r.producer_tail - r.consumer_head + 1) hv rfl hnn hfuel
  refine ⟨d1, ?_, rfl, rfl, rfl⟩
  have hee : (mpmc_ptr_ring_cleanup r true).2.consumer_head
      = (mpmc_ptr_ring_cleanup r true).2.producer_tail := d2
  unfold mpmc_ptr_ring_empty
  exact beq_iff_eq.mpr hee

/-- C7 counterexample: the claim says a failed allocation leaves the ring
structure observably unchanged, but `mpmc_ptr_ring_init` writes `size`,
the three counters and the (null) `queue` pointer before `kcalloc` is
consulted; a ring with prior contents is visibly modified by the failing
call. -/
theorem ring_init_alloc_counterexample :
    (mpmc_ptr_ring_init ⟨[9, 9, 9], 3, 4, 5, 6⟩ 4 false).1 = -ENOMEM ∧
    (mpmc_ptr_ring_init ⟨[9, 9, 9], 3, 4, 5, 6⟩ 4 false).2 ≠ ⟨[9, 9, 9], 3, 4, 5, 6⟩ := by
  decide

/-- C7 (amended): when `init` fails with `-ENOMEM` (power-of-two size,
backing array unobtainable) no allocation is retained, but partial state
is left behind: `size` holds the requested capacity, the three counters
are zeroed and `queue` holds the null pointer. -/
theorem ring_init_alloc_failure_amended (r : mpmc_ptr_ring) (n : Nat)
    (h : ∃ k, n = 2 ^ k) :
    mpmc_ptr_ring_init r n false = (-ENOMEM, ⟨[], n, 0, 0, 0⟩) :=
  init_alloc_fail r n h

/-- C8: `__mpmc_ptr_ring_peek` never modifies the ring; it returns `NULL`
exactly when `consumer_head = producer_tail` and otherwise the value at
slot `consumer_head mod size` without removing it, so repeated peeks
agree and a consume immediately after a nonempty peek returns the peeked
value. -/
theorem ring_peek_spec (r : mpmc_ptr_ring) (hp : ∃ k, r.size = 2 ^ k) :
    (__mpmc_ptr_ring_peek r).2 = r ∧
    (r.consumer_head = r.producer_tail → (__mpmc_ptr_ring_peek r).1 = NULL) ∧
    (r.consumer_head ≠ r.producer_tail →
      (__mpmc_ptr_ring_peek r).1 = r.queue.getD (r.consumer_head % r.size) NULL) ∧
    __mpmc_ptr_ring_peek (__mpmc_ptr_ring_peek r).2 = __mpmc_ptr_ring_peek r ∧
    (r.consumer_head ≠ r.producer_tail →
      (mpmc_ptr_ring_consume r).1 = (__mpmc_ptr_ring_peek r).1) := by
  obtain ⟨k, hk⟩ := hp
  have h2 : (__mpmc_ptr_ring_peek r).2 = r := by
    unfold __mpmc_ptr_ring_peek
    by_cases he : r.consumer_head = r.producer_tail
    · simp [he]
    · simp [he]
  refine ⟨h2, ?_, ?_, by rw [h2], ?_⟩
  · intro he
    unfold __mpmc_ptr_ring_peek
    simp [he]
  · intro hne
    unfold __mpmc_ptr_ring_peek
    simp only [hne, if_false]
    rw [hk, land_two_pow_sub_one]
  · intro hne
    rw [consume_nonempty r (fun h => hne h.symm)]
    unfold __mpmc_ptr_ring_peek
    simp [hne]

/-- C9: `produce` performs no null check — its result code is independent
of the value being enqueued, and enqueuing `NULL` on an idle ring with
room succeeds like any other value; the consume that dequeues it returns
`NULL`, the very value consume returns on an empty ring, so the caller
cannot tell a dequeued null element from an empty ring. -/
theorem ring_produce_null_ambiguous (r : mpmc_ptr_ring) (v : Ptr)
    (hv : SeqValid r) (hempty : contents r = []) (hsz : 2 ≤ r.size) :
    (mpmc_ptr_ring_produce r v).1 = (mpmc_ptr_ring_produce r NULL).1 ∧
    (mpmc_ptr_ring_produce r NULL).1 = 0 ∧
    (mpmc_ptr_ring_consume (mpmc_ptr_ring_produce r NULL).2).1 = NULL ∧
    (mpmc_ptr_ring_consume r).1 = NULL := by
  have hch : r.producer_tail = r.consumer_head := (contents_eq_nil r hv.hcp).mp hempty
  have hroom : r.producer_tail - r.consumer_head < r.size - 1 := by omega
  obtain ⟨p1, pval, pcont, _⟩ := produce_ok_spec r NULL hv hroom
  rw [hempty, List.nil_append] at pcont
  refine ⟨?_, p1, ?_, ?_⟩
  · unfold mpmc_ptr_ring_produce
    by_cases hg : r.producer_head - r.consumer_head < r.size - 1
    · simp [hg]
    · simp [hg]
  · exact (consume_cons_spec _ NULL [] pval pcont).1
  · rw [consume_empty r hch]

/-- C10: a ring of capacity 1 initialises successfully (1 is a power of
two), yet every produce fails with `-ENOSPC` whatever the ring's history:
the room test compares against `size - 1 = 0` and can never hold, so such
a ring can never hold an element. -/
theorem ring_capacity_one_unusable (r : mpmc_ptr_ring) (v : Ptr)
    (hsz : r.size = 1) :
    mpmc_ptr_ring_produce r v = (-ENOSPC, r) ∧
    (mpmc_ptr_ring_init r 1 true).1 = 0 := by
  constructor
  · apply produce_full
    rw [hsz]
    omega
  · rw [init_ok r 1 ⟨0, rfl⟩]

/-- C4: with `N > 1` consumer threads racing over a quiesced backlog of
`M > 1` items, once every thread has completed (finished its consume loop
by observing emptiness), exactly `M` consume calls have succeeded in
total across all threads — the log of successful `consumer_head` CAS
operations has length `M`, covers the logical indices of the backlog in
order with each index won exactly once (one winner per slot), and each
entry delivers the value of its slot to a single valid thread. -/
theorem ring_no_duplicate_delivery (r0 : mpmc_ptr_ring) (N M : Nat)
    (hN : 1 < N) (hM : 1 < M)
    (hbacklog : r0.producer_tail = r0.consumer_head + M) (s : CSys)
    (hreach : Relation.ReflTransGen ConsumerStep (initCSys r0 N) s)
    (hfin : ∀ i : Nat, i < N → s.threads[i]? = some CStatus.finished) :
    s.log.length = M ∧
    s.log.map (fun e => e.2.1) = List.range' r0.consumer_head M ∧
    (∀ j : Nat, j < M →
      (s.log.map (fun e => e.2.1)).count (r0.consumer_head + j) = 1) ∧
    (∀ e ∈ s.log, e.1 < N ∧
      e.2.2 = r0.queue.getD (e.2.1 &&& (r0.size - 1)) NULL) := by
  have hinv := CInv_reach r0 N (by omega) s hreach
  have hch : s.ring.consumer_head = r0.producer_tail :=
    hinv.fin_ch ⟨0, hfin 0 (by omega)⟩
  have hidx : s.log.map (fun e => e.2.1) = List.range' r0.consumer_head M := by
    rw [hinv.log_idx, hch, hbacklog]
    congr 1
    omega
  refine ⟨?_, hidx, ?_, hinv.log_val⟩
  · have := congrArg List.length hidx
    simpa using this
  · intro j hj
    rw [hidx]
    apply List.count_eq_one_of_mem
    · exact List.nodup_range' _ _
    · rw [List.mem_range'_1]
      omega

/-- No natural power of two equals 3. -/
theorem three_not_pow2 : ¬ ∃ k : Nat, 3 = 2 ^ k := by
  rintro ⟨k, hk⟩
  match k with
  | 0 => exact absurd hk (by decide)
  | 1 => exact absurd hk (by decide)
  | k + 2 =>
    rw [pow_add] at hk
    have h1 : 1 ≤ 2 ^ k := Nat.one_le_two_pow
    omega

theorem ring_fifo_order_witness :
    (consumeN (⟨[7, 8, 0, 0], 4, 0, 2, 2⟩ : mpmc_ptr_ring) 2).1 = [7, 8] ∧
    (mpmc_ptr_ring_consume (mpmc_ptr_ring_produce (freshRing 4) 9).2).1 = 9 :=
  ⟨((ring_fifo_order (freshRing 4) (freshRing_valid 2) (by decide)).1
      [7, 8] ⟨[7, 8, 0, 0], 4, 0, 2, 2⟩ (by decide)).1,
   (ring_fifo_order (freshRing 4) (freshRing_valid 2) (by decide)).2 9 (by decide)⟩

theorem ring_capacity_bound_witness :
    mpmc_ptr_ring_produce ⟨[1, 2, 3, 0], 4, 0, 3, 3⟩ 4
      = (-ENOSPC, ⟨[1, 2, 3, 0], 4, 0, 3, 3⟩) ∧
    (mpmc_ptr_ring_produce
      (mpmc_ptr_ring_consume ⟨[1, 2, 3, 0], 4, 0, 3, 3⟩).2 5).1 = 0 := by
  obtain ⟨r2, hp, hfull, hnext⟩ := ring_capacity_bound 2 [1, 2, 3] 4 5 (by decide)
  have heval : produceList (freshRing (2 ^ 2)) [1, 2, 3]
      = some ⟨[1, 2, 3, 0], 4, 0, 3, 3⟩ := by decide
  rw [heval] at hp
  have hr2 : r2 = ⟨[1, 2, 3, 0], 4, 0, 3, 3⟩ := (Option.some.inj hp).symm
  subst hr2
  exact ⟨hfull, hnext (by decide)⟩

theorem ring_counter_invariant_witness :
    ringInv (mpmc_ptr_ring_init (freshRing 1) 4 true).2 ∧
    ringInv (mpmc_ptr_ring_produce (freshRing 4) 5).2 ∧
    ringInv (mpmc_ptr_ring_consume (freshRing 4)).2 :=
  ⟨(ring_counter_invariant.1 (freshRing 1) 4 true (by decide)).1,
   (ring_counter_invariant.2.1 (freshRing 4) 5 ⟨Nat.le_refl 0, Nat.le_refl 0⟩).1,
   (ring_counter_invariant.2.2 (freshRing 4) ⟨Nat.le_refl 0, Nat.le_refl 0⟩).1⟩

theorem ring_init_capacity_validation_witness :
    mpmc_ptr_ring_init (freshRing 2) 3 true = (-EINVAL, freshRing 2) ∧
    (mpmc_ptr_ring_init (freshRing 2) 4 true).1 ≠ -EINVAL ∧
    (mpmc_ptr_ring_init (freshRing 2) 4 true).1 = 0 :=
  ⟨(ring_init_capacity_validation (freshRing 2) 3 true).1 three_not_pow2,
   (ring_init_capacity_validation (freshRing 2) 4 true).2.1 ⟨2, rfl⟩,
   (ring_init_capacity_validation (freshRing 2) 4 true).2.2 ⟨2, rfl⟩ rfl⟩

theorem ring_cleanup_spec_witness :
    (mpmc_ptr_ring_cleanup ⟨[5, 0], 2, 0, 1, 1⟩ true).1 = [5] ∧
    mpmc_ptr_ring_empty (mpmc_ptr_ring_cleanup ⟨[5, 0], 2, 0, 1, 1⟩ true).2 = true := by
  have h := ring_cleanup_spec ⟨[5, 0], 2, 0, 1, 1⟩
    ⟨⟨1, rfl⟩, rfl, by decide, rfl, by decide⟩ (by decide)
  exact ⟨h.1, h.2.1⟩

theorem ring_init_alloc_failure_amended_witness :
    mpmc_ptr_ring_init ⟨[9, 9, 9], 3, 4, 5, 6⟩ 4 false = (-ENOMEM, ⟨[], 4, 0, 0, 0⟩) :=
  ring_init_alloc_failure_amended ⟨[9, 9, 9], 3, 4, 5, 6⟩ 4 ⟨2, rfl⟩

theorem ring_peek_spec_witness :
    (__mpmc_ptr_ring_peek ⟨[5, 0], 2, 0, 1, 1⟩).2 = ⟨[5, 0], 2, 0, 1, 1⟩ ∧
    (__mpmc_ptr_ring_peek ⟨[5, 0], 2, 0, 1, 1⟩).1 = 5 ∧
    (mpmc_ptr_ring_consume ⟨[5, 0], 2, 0, 1, 1⟩).1
      = (__mpmc_ptr_ring_peek ⟨[5, 0], 2, 0, 1, 1⟩).1 := by
  have h := ring_peek_spec ⟨[5, 0], 2, 0, 1, 1⟩ ⟨1, rfl⟩
  exact ⟨h.1, h.2.2.1 (by decide), h.2.2.2.2 (by decide)⟩

theorem ring_produce_null_ambiguous_witness :
    (mpmc_ptr_ring_produce (freshRing 2) 7).1
      = (mpmc_ptr_ring_produce (freshRing 2) NULL).1 ∧
    (mpmc_ptr_ring_produce (freshRing 2) NULL).1 = 0 ∧
    (mpmc_ptr_ring_consume (mpmc_ptr_ring_produce (freshRing 2) NULL).2).1 = NULL ∧
    (mpmc_ptr_ring_consume (freshRing 2)).1 = NULL :=
  ring_produce_null_ambiguous (freshRing 2) 7 (freshRing_valid 1) (by decide) (by decide)

theorem ring_capacity_one_unusable_witness :
    mpmc_ptr_ring_produce (freshRing 1) 3 = (-ENOSPC, freshRing 1) ∧
    (mpmc_ptr_ring_init (freshRing 1) 1 true).1 = 0 :=
  ring_capacity_one_unusable (freshRing 1) 3 rfl

theorem ring_no_duplicate_delivery_witness :
    ([((0 : Nat), (0 : Nat), (10 : Ptr)), ((0 : Nat), (1 : Nat), (20 : Ptr))]
        : List (Nat × Nat × Ptr)).length = 2 ∧
    ([((0 : Nat), (0 : Nat), (10 : Ptr)), ((0 : Nat), (1 : Nat), (20 : Ptr))]
        : List (Nat × Nat × Ptr)).map (fun e => e.2.1) = List.range' 0 2 := by
  have h1 : ConsumerStep
      ⟨⟨[10, 20, 0, 0], 4, 0, 2, 2⟩, [CStatus.start, CStatus.start], []⟩
      ⟨⟨[10, 20, 0, 0], 4, 0, 2, 2⟩, [CStatus.cas 0 10, CStatus.start], []⟩ :=
    ConsumerStep.read_elem _ 0 rfl (by decide)
  have h2 : ConsumerStep
      ⟨⟨[10, 20, 0, 0], 4, 0, 2, 2⟩, [CStatus.cas 0 10, CStatus.start], []⟩
      ⟨⟨[10, 20, 0, 0], 4, 1, 2, 2⟩, [CStatus.start, CStatus.start], [(0, 0, 10)]⟩ :=
    ConsumerStep.cas_success _ 0 0 10 rfl rfl
  have h3 : ConsumerStep
      ⟨⟨[10, 20, 0, 0], 4, 1, 2, 2⟩, [CStatus.start, CStatus.start], [(0, 0, 10)]⟩
      ⟨⟨[10, 20, 0, 0], 4, 1, 2, 2⟩, [CStatus.cas 1 20, CStatus.start], [(0, 0, 10)]⟩ :=
    ConsumerStep.read_elem _ 0 rfl (by decide)
  have h4 : ConsumerStep
      ⟨⟨[10, 20, 0, 0], 4, 1, 2, 2⟩, [CStatus.cas 1 20, CStatus.start], [(0, 0, 10)]⟩
      ⟨⟨[10, 20, 0, 0], 4, 2, 2, 2⟩, [CStatus.start, CStatus.start],
        [(0, 0, 10), (0, 1, 20)]⟩ :=
    ConsumerStep.cas_success _ 0 1 20 rfl rfl
  have h5 : ConsumerStep
      ⟨⟨[10, 20, 0, 0], 4, 2, 2, 2⟩, [CStatus.start, CStatus.start],
        [(0, 0, 10), (0, 1, 20)]⟩
      ⟨⟨[10, 20, 0, 0], 4, 2, 2, 2⟩, [CStatus.finished, CStatus.start],
        [(0, 0, 10), (0, 1, 20)]⟩ :=
    ConsumerStep.read_empty _ 0 rfl rfl
  have h6 : ConsumerStep
      ⟨⟨[10, 20, 0, 0], 4, 2, 2, 2⟩, [CStatus.finished, CStatus.start],
        [(0, 0, 10), (0, 1, 20)]⟩
      ⟨⟨[10, 20, 0, 0], 4, 2, 2, 2⟩, [CStatus.finished, CStatus.finished],
        [(0, 0, 10), (0, 1, 20)]⟩ :=
    ConsumerStep.read_empty _ 1 rfl rfl
  have hreach : Relation.ReflTransGen ConsumerStep
      (initCSys ⟨[10, 20, 0, 0], 4, 0, 2, 2⟩ 2)
      ⟨⟨[10, 20, 0, 0], 4, 2, 2, 2⟩, [CStatus.finished, CStatus.finished],
        [(0, 0, 10), (0, 1, 20)]⟩ :=
    ((((((Relation.ReflTransGen.refl.tail h1).tail h2).tail h3).tail
      h4).tail h5).tail h6)
  have h := ring_no_duplicate_delivery ⟨[10, 20, 0, 0], 4, 0, 2, 2⟩ 2 2
    (by decide) (by decide) rfl
    ⟨⟨[10, 20, 0, 0], 4, 2, 2, 2⟩, [CStatus.finished, CStatus.finished],
      [(0, 0, 10), (0, 1, 20)]⟩
    hreach (by decide)
  exact ⟨h.1, h.2.1⟩
